import Mathlib

set_option maxRecDepth 2000

/-!
Verification of the LSB steganography codec of the Stegano app
(`src/app/page.tsx`): text/bitstream conversion, 32-bit length header,
LSB embedding into RGBA pixel buffers, and extraction with validation.

Pixel buffers are modelled as `List Nat` (channel bytes in RGBA order),
bitstreams as `List Bool`, messages as `List Nat` of character codes.
Fallible operations return `Except StegError`.
-/

namespace Stegano

/-- Binary digits of `n`, most-significant bit first, with explicit fuel so
that the definition is structurally recursive (and kernel-evaluable).
Models JavaScript `n.toString(2)` (which yields "0" for 0). -/
def natBitsAux : Nat → Nat → List Bool
  | 0, n => [decide (n % 2 = 1)]
  | fuel+1, n => if n < 2 then [decide (n = 1)] else natBitsAux fuel (n / 2) ++ [decide (n % 2 = 1)]

/-- Binary digits of `n`, MSB first; models `n.toString(2)`. -/
def natBits (n : Nat) : List Bool := natBitsAux n n

/-- Left-pad a bitstring with `false` up to width `w`; longer inputs are
returned unchanged. Models `'0'.repeat(w - s.length) + s` (for guarded
callers) and `s.padStart(w, '0')`. -/
def padLeft (w : Nat) (bits : List Bool) : List Bool :=
  List.replicate (w - bits.length) false ++ bits

/-- Numeric value of a bitstring read MSB-first; models `parseInt(s, 2)`
on a nonempty string of binary digits. -/
def bitsToNat (bits : List Bool) : Nat :=
  bits.foldl (fun acc b => 2 * acc + (if b then 1 else 0)) 0

/-- One character of `textToBinary`: `char.charCodeAt(0).toString(2)`
padded to 8 bits via `'0'.repeat(8 - binary.length)`. `String.repeat`
throws a `RangeError` on a negative count, i.e. when the character code
needs more than 8 binary digits; that failure is `none`. -/
def charToBits (c : Nat) : Option (List Bool) :=
  if (natBits c).length ≤ 8 then some (padLeft 8 (natBits c)) else none

/-- `textToBinary` from `page.tsx`: per-character 8-bit binary, concatenated.
`none` models the `RangeError` escaping for character codes above 255. -/
def textToBinary : List Nat → Option (List Bool)
  | [] => some []
  | c :: cs =>
    match charToBits c, textToBinary cs with
    | some b, some rest => some (b ++ rest)
    | _, _ => none

/-- `binaryToText` from `page.tsx`: regroup the bits 8 at a time
(`binary.substring(i, i+8)`, which yields a shorter final group when the
length is not a multiple of 8), parse each group with `parseInt(byte, 2)`
and map it to a character code. Total: misaligned input is not rejected. -/
def binaryToText : List Bool → List Nat
  | [] => []
  | b1 :: b2 :: b3 :: b4 :: b5 :: b6 :: b7 :: b8 :: rest =>
      bitsToNat [b1, b2, b3, b4, b5, b6, b7, b8] :: binaryToText rest
  | bits => [bitsToNat bits]

/-- One embedding step: `val = val & ~1; if (bit === '1') val = val | 1`. -/
def setLSB (v : Nat) (b : Bool) : Nat := 2 * (v / 2) + (if b then 1 else 0)

/-- The embedding loop of `handleEncode`: walk the buffer; at channel
position `pos` (`pos % 4 = 3` is alpha, skipped), write the next payload
bit into the LSB; stop once the payload is exhausted, leaving the rest of
the buffer unchanged. -/
def embedAux : List Nat → List Bool → Nat → List Nat
  | [], _, _ => []
  | data, [], _ => data
  | d :: rest, b :: bs, pos =>
    if pos % 4 = 3 then d :: embedAux rest (b :: bs) (pos + 1)
    else setLSB d b :: embedAux rest bs (pos + 1)

/-- Structured failures of encode/decode (`page.tsx` reports them as toasts
and `setError` messages). -/
inductive StegError
  | badChar
  | capacityExceeded
  | truncatedHeader
  | invalidLength
  | truncatedPayload
deriving DecidableEq

deriving instance DecidableEq for Except

/-- The envelope built by `handleEncode` lines 83-85:
`messageLengthBinary = binaryMessage.length.toString(2).padStart(32,'0')`,
`fullBinaryPayload = messageLengthBinary + binaryMessage`. -/
def envelopeOf (msg : List Nat) : Option (List Bool) :=
  (textToBinary msg).map fun binaryMessage =>
    padLeft 32 (natBits binaryMessage.length) ++ binaryMessage

/-- `handleEncode` core: build the envelope, reject it if it exceeds
`width*height*3` bits, otherwise write it into the LSBs of the buffer. -/
def embed (data : List Nat) (w h : Nat) (msg : List Nat) : Except StegError (List Nat) :=
  match textToBinary msg with
  | none => .error .badChar
  | some binaryMessage =>
    let fullBinaryPayload := padLeft 32 (natBits binaryMessage.length) ++ binaryMessage
    if fullBinaryPayload.length > w * h * 3 then .error .capacityExceeded
    else .ok (embedAux data fullBinaryPayload 0)

/-- First loop of `handleDecode`: collect LSBs of non-alpha channels until
32 header bits have been gathered (`cnt` is `binaryLength.length`). -/
def collectHeader : List Nat → Nat → Nat → List Bool
  | [], _, _ => []
  | d :: rest, pos, cnt =>
    if cnt < 32 then
      if pos % 4 = 3 then collectHeader rest (pos + 1) cnt
      else decide (d % 2 = 1) :: collectHeader rest (pos + 1) (cnt + 1)
    else []

/-- Second loop of `handleDecode`: walk the channels again, counting every
non-alpha channel in `overall` (`overallBitIndex`), collecting LSBs only
once `overall ≥ 32`, until `msgIdx` (`messageBitIndex`) reaches `msgLen`. -/
def collectPayload : List Nat → Nat → Nat → Nat → Nat → List Bool
  | [], _, _, _, _ => []
  | d :: rest, pos, overall, msgIdx, msgLen =>
    if msgIdx < msgLen then
      if pos % 4 = 3 then collectPayload rest (pos + 1) overall msgIdx msgLen
      else if 32 ≤ overall then
        decide (d % 2 = 1) :: collectPayload rest (pos + 1) (overall + 1) (msgIdx + 1) msgLen
      else collectPayload rest (pos + 1) (overall + 1) msgIdx msgLen
    else []

/-- LSBs of all embeddable (non-alpha) channels starting at channel
position `pos`; the traversal both decode loops share. -/
def lsbAux : List Nat → Nat → List Bool
  | [], _ => []
  | d :: rest, pos =>
    if pos % 4 = 3 then lsbAux rest (pos + 1)
    else decide (d % 2 = 1) :: lsbAux rest (pos + 1)

/-- `handleDecode` core: read the 32-bit header, validate the length
(`messageLength <= 0 || messageLength > width*height*3`), collect that
many payload bits, convert them back to text. -/
def extract (data : List Nat) (w h : Nat) : Except StegError (List Nat) :=
  let binaryLength := collectHeader data 0 0
  if binaryLength.length < 32 then .error .truncatedHeader
  else
    let messageLength := bitsToNat binaryLength
    if messageLength = 0 ∨ messageLength > w * h * 3 then .error .invalidLength
    else
      let binaryMessage := collectPayload data 0 0 0 messageLength
      if binaryMessage.length < messageLength then .error .truncatedPayload
      else .ok (binaryToText binaryMessage)

/-- The byte capacity reported by `handleEncode`'s error message:
`Math.floor(maxCapacityBits / 8)` (`page.tsx` line 90). -/
def reportedCapacityBytes (w h : Nat) : Nat := w * h * 3 / 8

/-- `calculateCapacity` from `encode-form.tsx`:
`Math.floor((width*height*3 - BITS_FOR_LENGTH) / 8)` bytes. -/
def calculateCapacity (w h : Nat) : Nat := (w * h * 3 - 32) / 8

/-- Spec-side definition (from the spec's words, for refinement claims):
the `w`-bit unsigned big-endian binary representation of `v`. -/
def toBinBE : Nat → Nat → List Bool
  | 0, _ => []
  | w+1, v => toBinBE w (v / 2) ++ [decide (v % 2 = 1)]

/-! ### Lemmas about `natBits` -/

theorem natBitsAux_congr : ∀ (f1 f2 n : Nat), n ≤ f1 → n ≤ f2 → natBitsAux f1 n = natBitsAux f2 n := by
  intro f1
  induction f1 with
  | zero =>
    intro f2 n h1 h2
    have hn : n = 0 := Nat.le_zero.mp h1
    subst hn
    cases f2 with
    | zero => rfl
    | succ g => simp [natBitsAux]
  | succ f ih =>
    intro f2 n h1 h2
    cases f2 with
    | zero =>
      have hn : n = 0 := Nat.le_zero.mp h2
      subst hn
      simp [natBitsAux]
    | succ g =>
      by_cases hn : n < 2
      · simp [natBitsAux, hn]
      · simp only [natBitsAux, if_neg hn]
        congr 1
        exact ih g (n / 2) (by omega) (by omega)

theorem natBits_zero : natBits 0 = [false] := by decide

theorem natBits_one : natBits 1 = [true] := by decide

theorem natBits_of_two_le {n : Nat} (h : 2 ≤ n) :
    natBits n = natBits (n / 2) ++ [decide (n % 2 = 1)] := by
  obtain ⟨m, rfl⟩ : ∃ m, n = m + 2 := ⟨n - 2, by omega⟩
  show natBitsAux (m + 1 + 1) (m + 2) = _
  simp only [natBitsAux]
  rw [if_neg (by omega)]
  congr 1
  exact natBitsAux_congr (m + 1) ((m + 2) / 2) ((m + 2) / 2) (by omega) le_rfl

theorem natBits_length_pos (n : Nat) : 1 ≤ (natBits n).length := by
  by_cases h : 2 ≤ n
  · rw [natBits_of_two_le h]
    simp
  · interval_cases n
    · rw [natBits_zero]; simp
    · rw [natBits_one]; simp

theorem natBits_length_le : ∀ n k : Nat, 1 ≤ k → n < 2 ^ k → (natBits n).length ≤ k := by
  intro n
  induction n using Nat.strong_induction_on with
  | _ n ih =>
    intro k hk hlt
    by_cases h : 2 ≤ n
    · have hk2 : 2 ≤ k := by
        by_contra hc
        have : k = 1 := by omega
        subst this
        simp at hlt
        omega
      rw [natBits_of_two_le h]
      have hdiv : n / 2 < 2 ^ (k - 1) := by
        rw [Nat.div_lt_iff_lt_mul (by norm_num : 0 < 2)]
        calc n < 2 ^ k := hlt
        _ = 2 ^ (k - 1) * 2 := by
              rw [← pow_succ]
              congr 1
              omega
      have := ih (n / 2) (by omega) (k - 1) (by omega) hdiv
      simp only [List.length_append, List.length_cons, List.length_nil]
      omega
    · have : n = 0 ∨ n = 1 := by omega
      rcases this with h0 | h1
      · subst h0; rw [natBits_zero]; simpa using hk
      · subst h1; rw [natBits_one]; simpa using hk

theorem natBits_length_ge : ∀ k n : Nat, 2 ^ k ≤ n → k + 1 ≤ (natBits n).length := by
  intro k
  induction k with
  | zero => intro n _; simpa using natBits_length_pos n
  | succ k ih =>
    intro n hn
    have h2 : 2 ≤ n := by
      have hp : 2 ^ 1 ≤ 2 ^ (k + 1) := Nat.pow_le_pow_right (by norm_num) (by omega)
      simpa using le_trans hp hn
    rw [natBits_of_two_le h2]
    have hdiv : 2 ^ k ≤ n / 2 := by
      rw [Nat.le_div_iff_mul_le (by norm_num : 0 < 2)]
      calc 2 ^ k * 2 = 2 ^ (k + 1) := (pow_succ 2 k).symm
      _ ≤ n := hn
    have := ih (n / 2) hdiv
    simp only [List.length_append, List.length_cons, List.length_nil]
    omega

theorem natBits_pow_length (k : Nat) : (natBits (2 ^ k)).length = k + 1 := by
  have h1 := natBits_length_ge k (2 ^ k) le_rfl
  have h2 := natBits_length_le (2 ^ k) (k + 1) (by omega)
    (by have := Nat.pow_lt_pow_right (by norm_num : 1 < 2) (Nat.lt_succ_self k); omega)
  omega

/-! ### Lemmas about `bitsToNat` -/

theorem bitsToNat_foldl (bs : List Bool) :
    ∀ acc : Nat, bs.foldl (fun a b => 2 * a + (if b then 1 else 0)) acc
      = acc * 2 ^ bs.length + bitsToNat bs := by
  induction bs with
  | nil => intro acc; simp [bitsToNat]
  | cons b bs ih =>
    intro acc
    have hb : bitsToNat (b :: bs) = (if b then 1 else 0) * 2 ^ bs.length + bitsToNat bs := by
      show List.foldl _ _ (b :: bs) = _
      rw [List.foldl_cons, ih]
      ring_nf
    rw [List.foldl_cons, ih, hb, List.length_cons, pow_succ]
    ring

theorem bitsToNat_cons (b : Bool) (bs : List Bool) :
    bitsToNat (b :: bs) = (if b then 1 else 0) * 2 ^ bs.length + bitsToNat bs := by
  show List.foldl _ _ (b :: bs) = _
  rw [List.foldl_cons, bitsToNat_foldl]
  ring_nf

theorem bitsToNat_append (xs ys : List Bool) :
    bitsToNat (xs ++ ys) = bitsToNat xs * 2 ^ ys.length + bitsToNat ys := by
  show List.foldl _ _ (xs ++ ys) = _
  rw [List.foldl_append, bitsToNat_foldl]
  rfl

theorem bitsToNat_lt (bs : List Bool) : bitsToNat bs < 2 ^ bs.length := by
  induction bs with
  | nil => simp [bitsToNat]
  | cons b bs ih =>
    rw [bitsToNat_cons, List.length_cons, pow_succ]
    have : (if b then 1 else 0) ≤ 1 := by split <;> omega
    nlinarith [pow_pos (by norm_num : (0:Nat) < 2) bs.length]

theorem bitsToNat_eq_zero (bs : List Bool) (h : ∀ b ∈ bs, b = false) : bitsToNat bs = 0 := by
  induction bs with
  | nil => simp [bitsToNat]
  | cons b bs ih =>
    have hb : b = false := h b (List.mem_cons_self b bs)
    rw [bitsToNat_cons, hb, ih fun x hx => h x (List.mem_cons_of_mem b hx)]
    simp

theorem bitsToNat_replicate_false (k : Nat) : bitsToNat (List.replicate k false) = 0 :=
  bitsToNat_eq_zero _ fun _ hb => List.eq_of_mem_replicate hb

theorem bitsToNat_padLeft (w : Nat) (bits : List Bool) :
    bitsToNat (padLeft w bits) = bitsToNat bits := by
  rw [padLeft, bitsToNat_append, bitsToNat_replicate_false]
  simp

theorem bitsToNat_natBits : ∀ n : Nat, bitsToNat (natBits n) = n := by
  intro n
  induction n using Nat.strong_induction_on with
  | _ n ih =>
    by_cases h : 2 ≤ n
    · rw [natBits_of_two_le h, bitsToNat_append, ih (n / 2) (by omega)]
      rcases Nat.mod_two_eq_zero_or_one n with h0 | h1
      · rw [h0]
        simp [bitsToNat]
        omega
      · rw [h1]
        simp [bitsToNat]
        omega
    · have : n = 0 ∨ n = 1 := by omega
      rcases this with h0 | h1
      · subst h0; decide
      · subst h1; decide

theorem bitsToNat_inj : ∀ xs ys : List Bool,
    xs.length = ys.length → bitsToNat xs = bitsToNat ys → xs = ys := by
  intro xs
  induction xs with
  | nil =>
    intro ys hlen _
    exact (List.length_eq_zero.mp hlen.symm).symm
  | cons x xs ih =>
    intro ys hlen hval
    cases ys with
    | nil => simp at hlen
    | cons y ys =>
      simp only [List.length_cons, Nat.succ.injEq] at hlen
      rw [bitsToNat_cons, bitsToNat_cons, hlen] at hval
      have hx := bitsToNat_lt xs
      have hy := bitsToNat_lt ys
      rw [hlen] at hx
      have hxy : x = y ∧ bitsToNat xs = bitsToNat ys := by
        cases x <;> cases y <;> simp at hval ⊢ <;> omega
      rw [hxy.1, ih ys hlen hxy.2]

/-! ### Lemmas about the text codec -/

theorem padLeft_length (w : Nat) (bits : List Bool) :
    (padLeft w bits).length = max w bits.length := by
  rw [padLeft, List.length_append, List.length_replicate]
  omega

theorem padLeft_length_of_le {w : Nat} {bits : List Bool} (h : bits.length ≤ w) :
    (padLeft w bits).length = w := by
  rw [padLeft_length]
  omega

theorem charToBits_of_lt {c : Nat} (h : c < 256) :
    charToBits c = some (padLeft 8 (natBits c)) := by
  rw [charToBits, if_pos (natBits_length_le c 8 (by omega) h)]

theorem charToBits_of_ge {c : Nat} (h : 256 ≤ c) : charToBits c = none := by
  rw [charToBits, if_neg]
  have := natBits_length_ge 8 c h
  omega

theorem charToBits_length {c : Nat} {bs : List Bool} (h : charToBits c = some bs) :
    bs.length = 8 := by
  rw [charToBits] at h
  split at h
  · cases h
    exact padLeft_length_of_le (by assumption)
  · cases h

theorem charToBits_lt {c : Nat} {bs : List Bool} (h : charToBits c = some bs) : c < 256 := by
  by_contra hc
  rw [charToBits_of_ge (by omega)] at h
  cases h

theorem bitsToNat_charToBits {c : Nat} {bs : List Bool} (h : charToBits c = some bs) :
    bitsToNat bs = c := by
  have hc := charToBits_lt h
  rw [charToBits_of_lt hc] at h
  cases h
  rw [bitsToNat_padLeft, bitsToNat_natBits]

theorem textToBinary_cons (c : Nat) (cs : List Nat) :
    textToBinary (c :: cs)
      = match charToBits c, textToBinary cs with
        | some b, some rest => some (b ++ rest)
        | _, _ => none := rfl

theorem textToBinary_cons_some {c : Nat} {cs : List Nat} {b rest : List Bool}
    (hc : charToBits c = some b) (hcs : textToBinary cs = some rest) :
    textToBinary (c :: cs) = some (b ++ rest) := by
  rw [textToBinary_cons, hc, hcs]

theorem textToBinary_length : ∀ (msg : List Nat) (bits : List Bool),
    textToBinary msg = some bits → bits.length = 8 * msg.length := by
  intro msg
  induction msg with
  | nil => intro bits h; cases h; rfl
  | cons c cs ih =>
    intro bits h
    rw [textToBinary_cons] at h
    split at h
    · rename_i b rest hb hrest
      cases h
      rw [List.length_append, charToBits_length hb, ih rest hrest,
        List.length_cons]
      omega
    · cases h

theorem textToBinary_none_of_mem : ∀ (msg : List Nat) (c : Nat),
    c ∈ msg → 256 ≤ c → textToBinary msg = none := by
  intro msg
  induction msg with
  | nil => intro c hc; cases hc
  | cons d ds ih =>
    intro c hc hge
    rcases List.mem_cons.mp hc with h | h
    · subst h
      rw [textToBinary_cons, charToBits_of_ge hge]
    · rw [textToBinary_cons, ih c h hge]
      cases charToBits d <;> rfl

theorem textToBinary_isSome_of_lt : ∀ msg : List Nat,
    (∀ c ∈ msg, c < 256) → ∃ bits, textToBinary msg = some bits := by
  intro msg
  induction msg with
  | nil => intro _; exact ⟨[], rfl⟩
  | cons c cs ih =>
    intro h
    obtain ⟨rest, hrest⟩ := ih fun x hx => h x (List.mem_cons_of_mem c hx)
    exact ⟨_, textToBinary_cons_some (charToBits_of_lt (h c (List.mem_cons_self c cs))) hrest⟩

theorem textToBinary_replicate_zero : ∀ n : Nat,
    textToBinary (List.replicate n 0) = some (List.replicate (8 * n) false) := by
  intro n
  induction n with
  | zero => rfl
  | succ n ih =>
    rw [List.replicate_succ]
    have h0 : charToBits 0 = some (List.replicate 8 false) := by decide
    rw [textToBinary_cons_some h0 ih, ← List.replicate_add]
    have h8 : 8 + 8 * n = 8 * (n + 1) := by omega
    rw [h8]

/-! ### Lemmas about `binaryToText` -/

theorem binaryToText_append8 : ∀ (b8 rest : List Bool), b8.length = 8 →
    binaryToText (b8 ++ rest) = bitsToNat b8 :: binaryToText rest := by
  intro b8 rest h
  match b8, h with
  | [b1, b2, b3, b4, b5, b6, b7, b8], _ => rfl

theorem binaryToText_textToBinary : ∀ (msg : List Nat) (bits : List Bool),
    textToBinary msg = some bits → binaryToText bits = msg := by
  intro msg
  induction msg with
  | nil => intro bits h; cases h; rfl
  | cons c cs ih =>
    intro bits h
    rw [textToBinary_cons] at h
    split at h
    · rename_i b rest hb hrest
      cases h
      rw [binaryToText_append8 b rest (charToBits_length hb), bitsToNat_charToBits hb,
        ih rest hrest]
    · cases h

theorem binaryToText_length : ∀ bits : List Bool,
    (binaryToText bits).length = (bits.length + 7) / 8 := by
  intro bits
  induction bits using binaryToText.induct with
  | case1 => rfl
  | case2 b1 b2 b3 b4 b5 b6 b7 b8 rest ih =>
    show (binaryToText (b1 :: b2 :: b3 :: b4 :: b5 :: b6 :: b7 :: b8 :: rest)).length = _
    rw [binaryToText]
    simp only [List.length_cons]
    omega
  | case3 bits h1 h2 =>
    rcases bits with _ | ⟨x1, _ | ⟨x2, _ | ⟨x3, _ | ⟨x4, _ | ⟨x5, _ | ⟨x6, _ | ⟨x7, _ | ⟨x8, tail⟩⟩⟩⟩⟩⟩⟩⟩
    all_goals first
      | exact absurd rfl h1
      | exact (h2 _ _ _ _ _ _ _ _ _ rfl).elim
      | simp [binaryToText]

/-! ### Lemmas about the embedding loop and the channel traversal -/

theorem embedAux_nil_bits (data : List Nat) (pos : Nat) : embedAux data [] pos = data := by
  cases data <;> rfl

theorem embedAux_length : ∀ (data : List Nat) (bits : List Bool) (pos : Nat),
    (embedAux data bits pos).length = data.length := by
  intro data
  induction data with
  | nil => intro bits pos; cases bits <;> rfl
  | cons d rest ih =>
    intro bits pos
    cases bits with
    | nil => rw [embedAux_nil_bits]
    | cons b bs =>
      by_cases hp : pos % 4 = 3
      · rw [embedAux, if_pos hp, List.length_cons, List.length_cons, ih]
      · rw [embedAux, if_neg hp, List.length_cons, List.length_cons, ih]

theorem setLSB_mod_two (d : Nat) (b : Bool) :
    decide (setLSB d b % 2 = 1) = b := by
  cases b
  all_goals simp [setLSB]
  all_goals omega

theorem setLSB_div_two (d : Nat) (b : Bool) : setLSB d b / 2 = d / 2 := by
  cases b
  all_goals simp [setLSB]
  all_goals omega

theorem lsbAux_length : ∀ (n : Nat) (data : List Nat) (pos : Nat),
    data.length = 4 * n → pos % 4 = 0 → (lsbAux data pos).length = 3 * n := by
  intro n
  induction n with
  | zero =>
    intro data pos hlen _
    have hd : data = [] := List.length_eq_zero.mp (by omega)
    subst hd
    rfl
  | succ n ih =>
    intro data pos hlen hpos
    rcases data with _ | ⟨a, _ | ⟨b, _ | ⟨c, _ | ⟨d, rest⟩⟩⟩⟩ <;>
      simp only [List.length_cons, List.length_nil] at hlen
    · omega
    · omega
    · omega
    · omega
    · have hrest : rest.length = 4 * n := by omega
      have h0 : ¬ pos % 4 = 3 := by omega
      have h1 : ¬ (pos + 1) % 4 = 3 := by omega
      have h2 : ¬ (pos + 1 + 1) % 4 = 3 := by omega
      have h3 : (pos + 1 + 1 + 1) % 4 = 3 := by omega
      rw [lsbAux, if_neg h0, lsbAux, if_neg h1, lsbAux, if_neg h2, lsbAux, if_pos h3,
        List.length_cons, List.length_cons, List.length_cons,
        ih rest (pos + 1 + 1 + 1 + 1) hrest (by omega)]
      omega

theorem lsbAux_embedAux : ∀ (data : List Nat) (bits : List Bool) (pos : Nat),
    bits.length ≤ (lsbAux data pos).length →
    lsbAux (embedAux data bits pos) pos = bits ++ (lsbAux data pos).drop bits.length := by
  intro data
  induction data with
  | nil =>
    intro bits pos h
    have hb : bits = [] := by
      simp only [lsbAux, List.length_nil, Nat.le_zero] at h
      exact List.length_eq_zero.mp h
    subst hb
    rfl
  | cons d rest ih =>
    intro bits pos h
    cases bits with
    | nil => rw [embedAux_nil_bits]; simp
    | cons b bs =>
      by_cases hp : pos % 4 = 3
      · rw [lsbAux, if_pos hp] at h ⊢
        rw [embedAux, if_pos hp, lsbAux, if_pos hp, ih (b :: bs) (pos + 1) h]
      · rw [lsbAux, if_neg hp, List.length_cons] at h
        rw [embedAux, if_neg hp, lsbAux, if_neg hp, setLSB_mod_two,
          ih bs (pos + 1) (by simpa using Nat.le_of_succ_le_succ h),
          lsbAux, if_neg hp, List.length_cons, List.drop_succ_cons, List.cons_append]

theorem embedAux_getD : ∀ (data : List Nat) (bits : List Bool) (pos i : Nat),
    (embedAux data bits pos).getD i 0 / 2 = data.getD i 0 / 2 ∧
    ((pos + i) % 4 = 3 → (embedAux data bits pos).getD i 0 = data.getD i 0) := by
  intro data
  induction data with
  | nil => intro bits pos i; cases bits <;> exact ⟨rfl, fun _ => rfl⟩
  | cons d rest ih =>
    intro bits pos i
    cases bits with
    | nil => rw [embedAux_nil_bits]; exact ⟨rfl, fun _ => rfl⟩
    | cons b bs =>
      by_cases hp : pos % 4 = 3
      · rw [embedAux, if_pos hp]
        cases i with
        | zero => exact ⟨rfl, fun _ => rfl⟩
        | succ i =>
          simp only [List.getD_cons_succ]
          refine ⟨(ih (b :: bs) (pos + 1) i).1, fun hmod => (ih (b :: bs) (pos + 1) i).2 (by omega)⟩
      · rw [embedAux, if_neg hp]
        cases i with
        | zero =>
          simp only [List.getD_cons_zero]
          exact ⟨setLSB_div_two d b, fun hmod => absurd (by simpa using hmod) hp⟩
        | succ i =>
          simp only [List.getD_cons_succ]
          refine ⟨(ih bs (pos + 1) i).1, fun hmod => (ih bs (pos + 1) i).2 (by omega)⟩

/-! ### The decode loops as take/drop over the shared traversal -/

theorem collectHeader_eq : ∀ (data : List Nat) (pos cnt : Nat),
    collectHeader data pos cnt = (lsbAux data pos).take (32 - cnt) := by
  intro data
  induction data with
  | nil => intro pos cnt; simp [collectHeader, lsbAux]
  | cons d rest ih =>
    intro pos cnt
    by_cases hc : cnt < 32
    · by_cases hp : pos % 4 = 3
      · rw [collectHeader, if_pos hc, if_pos hp, lsbAux, if_pos hp, ih]
      · rw [collectHeader, if_pos hc, if_neg hp, lsbAux, if_neg hp, ih]
        have h32 : 32 - cnt = (32 - (cnt + 1)) + 1 := by omega
        rw [h32, List.take_succ_cons]
    · rw [collectHeader, if_neg hc]
      have h0 : 32 - cnt = 0 := by omega
      rw [h0, List.take_zero]

theorem collectPayload_of_ge : ∀ (data : List Nat) (pos overall msgIdx msgLen : Nat),
    32 ≤ overall →
    collectPayload data pos overall msgIdx msgLen = (lsbAux data pos).take (msgLen - msgIdx) := by
  intro data
  induction data with
  | nil => intro pos overall msgIdx msgLen _; simp [collectPayload, lsbAux]
  | cons d rest ih =>
    intro pos overall msgIdx msgLen hov
    by_cases hm : msgIdx < msgLen
    · by_cases hp : pos % 4 = 3
      · rw [collectPayload, if_pos hm, if_pos hp, lsbAux, if_pos hp, ih _ _ _ _ hov]
      · rw [collectPayload, if_pos hm, if_neg hp, if_pos hov, lsbAux, if_neg hp,
          ih _ _ _ _ (by omega)]
        have hstep : msgLen - msgIdx = (msgLen - (msgIdx + 1)) + 1 := by omega
        rw [hstep, List.take_succ_cons]
    · rw [collectPayload, if_neg hm]
      have h0 : msgLen - msgIdx = 0 := by omega
      rw [h0, List.take_zero]

theorem collectPayload_of_le : ∀ (data : List Nat) (pos overall msgLen : Nat),
    overall ≤ 32 →
    collectPayload data pos overall 0 msgLen
      = ((lsbAux data pos).drop (32 - overall)).take msgLen := by
  intro data
  induction data with
  | nil => intro pos overall msgLen _; simp [collectPayload, lsbAux]
  | cons d rest ih =>
    intro pos overall msgLen hov
    by_cases hm : 0 < msgLen
    · by_cases hp : pos % 4 = 3
      · rw [collectPayload, if_pos hm, if_pos hp, lsbAux, if_pos hp, ih _ _ _ hov]
      · by_cases ho : 32 ≤ overall
        · have h32 : overall = 32 := by omega
          subst h32
          rw [collectPayload, if_pos hm, if_neg hp, if_pos ho, lsbAux, if_neg hp,
            collectPayload_of_ge rest (pos + 1) 33 1 msgLen (by omega), Nat.sub_self,
            List.drop_zero]
          cases msgLen with
          | zero => omega
          | succ k =>
            rw [List.take_succ_cons]
            norm_num
        · rw [collectPayload, if_pos hm, if_neg hp, if_neg ho, lsbAux, if_neg hp,
            ih _ _ _ (by omega)]
          have hstep : 32 - overall = (32 - (overall + 1)) + 1 := by omega
          rw [hstep, List.drop_succ_cons]
    · rw [collectPayload, if_neg hm]
      have h0 : msgLen = 0 := by omega
      rw [h0, List.take_zero]

/-! ### The spec's big-endian representation agrees with the code's -/

theorem toBinBE_length : ∀ w v : Nat, (toBinBE w v).length = w := by
  intro w
  induction w with
  | zero => intro v; rfl
  | succ w ih =>
    intro v
    rw [toBinBE, List.length_append, ih, List.length_cons, List.length_nil]

theorem bitsToNat_toBinBE : ∀ w v : Nat, bitsToNat (toBinBE w v) = v % 2 ^ w := by
  intro w
  induction w with
  | zero => intro v; simp [toBinBE, bitsToNat, Nat.mod_one]
  | succ w ih =>
    intro v
    rw [toBinBE, bitsToNat_append, ih]
    have hb : bitsToNat [decide (v % 2 = 1)] = v % 2 := by
      rcases Nat.mod_two_eq_zero_or_one v with h | h <;> simp [h, bitsToNat]
    rw [hb]
    simp only [List.length_cons, List.length_nil, pow_one]
    have hP : 0 < 2 ^ w := Nat.pos_pow_of_pos w (by norm_num)
    have hq : 2 * (v / 2) + v % 2 = v := Nat.div_add_mod v 2
    have hqb : 2 ^ w * (v / 2 / 2 ^ w) + v / 2 % 2 ^ w = v / 2 := Nat.div_add_mod (v / 2) (2 ^ w)
    have hblt : v / 2 % 2 ^ w < 2 ^ w := Nat.mod_lt _ hP
    have hrlt : v % 2 < 2 := Nat.mod_lt _ (by norm_num)
    rw [pow_succ]
    calc v / 2 % 2 ^ w * 2 + v % 2
        = (v / 2 % 2 ^ w * 2 + v % 2) % (2 ^ w * 2) := (Nat.mod_eq_of_lt (by omega)).symm
      _ = (v / 2 % 2 ^ w * 2 + v % 2 + v / 2 / 2 ^ w * (2 ^ w * 2)) % (2 ^ w * 2) :=
          (Nat.add_mul_mod_self_right _ _ _).symm
      _ = v % (2 ^ w * 2) := by
          congr 1
          calc v / 2 % 2 ^ w * 2 + v % 2 + v / 2 / 2 ^ w * (2 ^ w * 2)
              = 2 * (2 ^ w * (v / 2 / 2 ^ w) + v / 2 % 2 ^ w) + v % 2 := by ring
            _ = 2 * (v / 2) + v % 2 := by rw [hqb]
            _ = v := hq

theorem padLeft_natBits_eq_toBinBE {w L : Nat} (hw : 1 ≤ w) (hL : L < 2 ^ w) :
    padLeft w (natBits L) = toBinBE w L := by
  apply bitsToNat_inj
  · rw [padLeft_length_of_le (natBits_length_le L w hw hL), toBinBE_length]
  · rw [bitsToNat_padLeft, bitsToNat_natBits, bitsToNat_toBinBE, Nat.mod_eq_of_lt hL]

theorem textToBinary_eq_flatten : ∀ (msg : List Nat) (payload : List Bool),
    textToBinary msg = some payload → payload = (msg.map fun c => toBinBE 8 c).flatten := by
  intro msg
  induction msg with
  | nil => intro payload h; cases h; rfl
  | cons c cs ih =>
    intro payload h
    rw [textToBinary_cons] at h
    split at h
    · rename_i b rest hb hrest
      cases h
      have hc := charToBits_lt hb
      rw [charToBits_of_lt hc] at hb
      cases hb
      rw [List.map_cons, List.flatten_cons, ← ih rest hrest,
        padLeft_natBits_eq_toBinBE (by norm_num) hc]
    · cases h

/-! ### Unfolded forms of `embed` and `extract` -/

theorem embed_eq (data : List Nat) (w h : Nat) (msg : List Nat) :
    embed data w h msg =
      match textToBinary msg with
      | none => Except.error StegError.badChar
      | some binaryMessage =>
        if (padLeft 32 (natBits binaryMessage.length) ++ binaryMessage).length > w * h * 3
          then Except.error StegError.capacityExceeded
          else Except.ok (embedAux data (padLeft 32 (natBits binaryMessage.length) ++ binaryMessage) 0) := rfl

theorem extract_eq (data : List Nat) (w h : Nat) :
    extract data w h =
      if (collectHeader data 0 0).length < 32 then Except.error StegError.truncatedHeader
      else if bitsToNat (collectHeader data 0 0) = 0
              ∨ bitsToNat (collectHeader data 0 0) > w * h * 3
        then Except.error StegError.invalidLength
      else if (collectPayload data 0 0 0 (bitsToNat (collectHeader data 0 0))).length
                < bitsToNat (collectHeader data 0 0)
        then Except.error StegError.truncatedPayload
      else Except.ok (binaryToText (collectPayload data 0 0 0 (bitsToNat (collectHeader data 0 0)))) := rfl

theorem lsbAux_zero_length {w h : Nat} {data : List Nat} (hlen : data.length = w * h * 4) :
    (lsbAux data 0).length = w * h * 3 := by
  have h4 : data.length = 4 * (w * h) := by rw [hlen]; ring
  rw [lsbAux_length (w * h) data 0 h4 (by norm_num)]
  ring

theorem collectHeader_zero (data : List Nat) :
    collectHeader data 0 0 = (lsbAux data 0).take 32 := by
  rw [collectHeader_eq]

theorem collectPayload_zero (data : List Nat) (msgLen : Nat) :
    collectPayload data 0 0 0 msgLen = ((lsbAux data 0).drop 32).take msgLen := by
  rw [collectPayload_of_le data 0 0 msgLen (by omega)]

theorem collectHeader_length {w h : Nat} {data : List Nat}
    (hlen : data.length = w * h * 4) (hcap : 32 ≤ w * h * 3) :
    (collectHeader data 0 0).length = 32 := by
  rw [collectHeader_zero, List.length_take, lsbAux_zero_length hlen]
  omega

theorem extract_invalidLength_iff {w h : Nat} {data : List Nat}
    (hlen : data.length = w * h * 4) (hcap : 32 ≤ w * h * 3) :
    extract data w h = Except.error StegError.invalidLength ↔
      (bitsToNat (collectHeader data 0 0) = 0
        ∨ w * h * 3 < bitsToNat (collectHeader data 0 0)) := by
  have hhl := collectHeader_length hlen hcap
  rw [extract_eq, if_neg (by omega)]
  by_cases hc : bitsToNat (collectHeader data 0 0) = 0
      ∨ bitsToNat (collectHeader data 0 0) > w * h * 3
  · rw [if_pos hc]
    simp [hc]
  · rw [if_neg hc]
    split <;> simp [hc]

theorem extract_truncatedPayload_of {w h : Nat} {data : List Nat}
    (hlen : data.length = w * h * 4) (hcap : 32 ≤ w * h * 3)
    (hne : bitsToNat (collectHeader data 0 0) ≠ 0)
    (hle : bitsToNat (collectHeader data 0 0) ≤ w * h * 3)
    (hbig : w * h * 3 - 32 < bitsToNat (collectHeader data 0 0)) :
    extract data w h = Except.error StegError.truncatedPayload := by
  have hhl := collectHeader_length hlen hcap
  rw [extract_eq, if_neg (by omega), if_neg (by omega), if_pos]
  rw [collectPayload_zero, List.length_take, List.length_drop, lsbAux_zero_length hlen]
  omega

theorem extract_ok_of {w h : Nat} {data : List Nat}
    (hlen : data.length = w * h * 4) (hcap : 32 ≤ w * h * 3)
    (hne : bitsToNat (collectHeader data 0 0) ≠ 0)
    (hfit : bitsToNat (collectHeader data 0 0) ≤ w * h * 3 - 32) :
    extract data w h
      = Except.ok (binaryToText
          (((lsbAux data 0).drop 32).take (bitsToNat (collectHeader data 0 0)))) := by
  have hhl := collectHeader_length hlen hcap
  rw [extract_eq, if_neg (by omega), if_neg (by omega), if_neg, collectPayload_zero]
  rw [collectPayload_zero, List.length_take, List.length_drop, lsbAux_zero_length hlen]
  omega

theorem take_append_of_length {α : Type} {l1 l2 : List α} {n : Nat} (h : l1.length = n) :
    (l1 ++ l2).take n = l1 := by
  subst h
  exact List.take_left _ _

theorem drop_append_of_length {α : Type} {l1 l2 : List α} {n : Nat} (h : l1.length = n) :
    (l1 ++ l2).drop n = l2 := by
  subst h
  exact List.drop_left _ _

theorem lsbAux_replicate_zero_mem : ∀ (n pos : Nat) (b : Bool),
    b ∈ lsbAux (List.replicate n 0) pos → b = false := by
  intro n
  induction n with
  | zero => intro pos b hb; cases hb
  | succ n ih =>
    intro pos b hb
    rw [List.replicate_succ, lsbAux] at hb
    split at hb
    · exact ih (pos + 1) b hb
    · rcases List.mem_cons.mp hb with h1 | h1
      · rw [h1]; decide
      · exact ih (pos + 1) b h1

theorem embed_some_eq {data : List Nat} {w h : Nat} {msg : List Nat} {payload : List Bool}
    (henc : textToBinary msg = some payload) :
    embed data w h msg =
      if (padLeft 32 (natBits payload.length) ++ payload).length > w * h * 3
        then Except.error StegError.capacityExceeded
        else Except.ok (embedAux data (padLeft 32 (natBits payload.length) ++ payload) 0) := by
  rw [embed_eq, henc]

theorem embed_ok_of {w h : Nat} {data msg : List Nat} {payload : List Bool}
    (henc : textToBinary msg = some payload)
    (hcap : (padLeft 32 (natBits payload.length) ++ payload).length ≤ w * h * 3) :
    embed data w h msg
      = Except.ok (embedAux data (padLeft 32 (natBits payload.length) ++ payload) 0) := by
  rw [embed_some_eq henc]
  exact if_neg (by omega)

/-! ## The claims -/

/-- C1, counterexample: the claim quantifies over every message whose encoded
length plus 32 fits the capacity, which includes the empty message; embedding
the empty message in a 4x3 all-zero buffer succeeds, but extracting from the
result does not return the empty message (the zero header is rejected), so
the round-trip of the claim fails at this input. -/
theorem steg_C1_cex :
    textToBinary [] = some [] ∧
    ([] : List Bool).length + 32 ≤ 4 * 3 * 3 ∧
    (List.replicate 48 0).length = 4 * 3 * 4 ∧
    Except.bind (embed (List.replicate 48 0) 4 3 []) (fun out => extract out 4 3)
      ≠ Except.ok [] := by
  refine ⟨rfl, by norm_num, by norm_num, ?_⟩
  decide

/-- C1, amended: for every nonempty message that encodes successfully, with
payload bit count below 2^32 (so the length header is exactly 32 bits) and
payload bit count + 32 within `width*height*3`, extracting from the buffer
produced by embedding returns exactly the original message, for any initial
pixel buffer content of length `width*height*4`. -/
theorem steg_C1_amended (w h : Nat) (data msg : List Nat) (payload : List Bool)
    (hlen : data.length = w * h * 4)
    (henc : textToBinary msg = some payload)
    (hmsg : msg ≠ [])
    (hsize : payload.length < 2 ^ 32)
    (hfit : payload.length + 32 ≤ w * h * 3) :
    Except.bind (embed data w h msg) (fun out => extract out w h) = Except.ok msg := by
  have hplen : payload.length = 8 * msg.length := textToBinary_length msg payload henc
  have hmlen : msg.length ≠ 0 := fun h0 => hmsg (List.length_eq_zero.mp h0)
  have hL0 : payload.length ≠ 0 := by omega
  have hhlen : (padLeft 32 (natBits payload.length)).length = 32 :=
    padLeft_length_of_le (natBits_length_le payload.length 32 (by norm_num) hsize)
  have henvlen : (padLeft 32 (natBits payload.length) ++ payload).length ≤ w * h * 3 := by
    rw [List.length_append, hhlen]
    omega
  rw [embed_ok_of henc henvlen]
  show extract (embedAux data (padLeft 32 (natBits payload.length) ++ payload) 0) w h
    = Except.ok msg
  have hemblen : (embedAux data (padLeft 32 (natBits payload.length) ++ payload) 0).length
      = w * h * 4 := by
    rw [embedAux_length]
    exact hlen
  have hlsb : lsbAux (embedAux data (padLeft 32 (natBits payload.length) ++ payload) 0) 0
      = (padLeft 32 (natBits payload.length) ++ payload)
        ++ (lsbAux data 0).drop (padLeft 32 (natBits payload.length) ++ payload).length := by
    apply lsbAux_embedAux
    rw [lsbAux_zero_length hlen, List.length_append, hhlen]
    omega
  have hch : collectHeader (embedAux data (padLeft 32 (natBits payload.length) ++ payload) 0) 0 0
      = padLeft 32 (natBits payload.length) := by
    rw [collectHeader_zero, hlsb, List.append_assoc]
    exact take_append_of_length hhlen
  have hLval : bitsToNat (collectHeader
      (embedAux data (padLeft 32 (natBits payload.length) ++ payload) 0) 0 0)
      = payload.length := by
    rw [hch, bitsToNat_padLeft, bitsToNat_natBits]
  rw [extract_ok_of hemblen (by omega) (by rw [hLval]; exact hL0) (by rw [hLval]; omega), hLval]
  have hdrop : (lsbAux (embedAux data (padLeft 32 (natBits payload.length) ++ payload) 0) 0).drop 32
      = payload ++ (lsbAux data 0).drop (padLeft 32 (natBits payload.length) ++ payload).length := by
    rw [hlsb, List.append_assoc]
    exact drop_append_of_length hhlen
  rw [hdrop, List.take_left, binaryToText_textToBinary msg payload henc]

/-- C1, amended, witness: a one-character message round-trips through a 3x6
all-128 buffer. -/
theorem steg_C1_amended_witness :
    Except.bind (embed (List.replicate 72 128) 3 6 [104]) (fun out => extract out 3 6)
      = Except.ok [104] :=
  steg_C1_amended 3 6 (List.replicate 72 128) [104]
    [false, true, true, false, true, false, false, false]
    (by norm_num) (by decide) (by decide) (by decide) (by norm_num)

/-- C2, counterexample: on a 4x3 buffer whose 32 header LSBs decode to 5,
which exceeds `capacityBits - 32 = 4`, extract fails with
`TruncatedPayloadError`, not `InvalidLengthError` as the claim requires
(the code compares the header against `capacityBits`, not
`capacityBits - 32`). -/
theorem steg_C2_cex :
    bitsToNat (collectHeader (((List.replicate 48 0).set 38 1).set 41 1) 0 0) = 5 ∧
    4 * 3 * 3 - 32 < 5 ∧
    (((List.replicate 48 0).set 38 1).set 41 1).length = 4 * 3 * 4 ∧
    extract (((List.replicate 48 0).set 38 1).set 41 1) 4 3
      = Except.error StegError.truncatedPayload := by
  refine ⟨by decide, by norm_num, by decide, by decide⟩

/-- C2, amended: for buffers of capacity at least 32, extract fails with
`InvalidLengthError` exactly when the 32-bit header value is 0 or exceeds
`capacityBits(width,height)` (not `capacityBits - 32`); in particular the
all-zero buffer fails with `InvalidLengthError`. -/
theorem steg_C2_amended (w h : Nat) (data : List Nat)
    (hlen : data.length = w * h * 4) (hcap : 32 ≤ w * h * 3) :
    (extract data w h = Except.error StegError.invalidLength ↔
      (bitsToNat (collectHeader data 0 0) = 0
        ∨ w * h * 3 < bitsToNat (collectHeader data 0 0))) ∧
    (data = List.replicate (w * h * 4) 0
      → extract data w h = Except.error StegError.invalidLength) := by
  refine ⟨extract_invalidLength_iff hlen hcap, fun hzero => ?_⟩
  rw [extract_invalidLength_iff hlen hcap]
  left
  subst hzero
  rw [collectHeader_zero]
  apply bitsToNat_eq_zero
  intro b hb
  exact lsbAux_replicate_zero_mem _ _ b (List.mem_of_mem_take hb)

/-- C2, amended, witness: on the all-zero 4x3 buffer the iff and the
all-zero clause are discharged at a concrete input. -/
theorem steg_C2_amended_witness :
    ((extract (List.replicate 48 0) 4 3 = Except.error StegError.invalidLength ↔
      (bitsToNat (collectHeader (List.replicate 48 0) 0 0) = 0
        ∨ 4 * 3 * 3 < bitsToNat (collectHeader (List.replicate 48 0) 0 0))) ∧
    (List.replicate 48 0 = List.replicate (4 * 3 * 4) 0
      → extract (List.replicate 48 0) 4 3 = Except.error StegError.invalidLength)) :=
  steg_C2_amended 4 3 (List.replicate 48 0) (by norm_num) (by norm_num)

/-- C3, counterexample: `binaryToText` applied to the 3-bit stream 101 does
not fail; it returns the one-character string with code 5 (the final short
group is parsed as a binary number), refuting the claim that misaligned
bitstreams are rejected with `MisalignedBitstreamError`. -/
theorem steg_C3_cex :
    binaryToText [true, false, true] = [5] ∧ ¬ ([true, false, true].length % 8 = 0) := by
  refine ⟨by decide, by decide⟩

/-- C3, amended: the payload-bits-to-text conversion is total; on a
bitstream whose length is not a multiple of 8 it still returns a string,
of `length / 8 + 1` characters, parsing the final group of fewer than 8
bits as a binary number. -/
theorem steg_C3_amended (bits : List Bool) (hmis : ¬ bits.length % 8 = 0) :
    (binaryToText bits).length = bits.length / 8 + 1 := by
  rw [binaryToText_length]
  omega

/-- C3, amended, witness: the 3-bit stream 101 yields one character. -/
theorem steg_C3_amended_witness :
    (binaryToText [true, false, true]).length = [true, false, true].length / 8 + 1 :=
  steg_C3_amended [true, false, true] (by decide)

/-- C4, helper: for byte values, clearing the low bit with `& 0xFE` is
division and remultiplication by 2. -/
theorem land254_all : ∀ a < 256, a &&& 254 = 2 * (a / 2) := by decide

/-- C4: whenever embed succeeds, every output byte agrees with the input
byte on all bits except the LSB (`out[i] & 0xFE == in[i] & 0xFE`), and
every alpha channel (index `i` with `i % 4 = 3`) is exactly unchanged. -/
theorem steg_C4 (data : List Nat) (w h : Nat) (msg : List Nat) (out : List Nat)
    (hok : embed data w h msg = Except.ok out)
    (hbytes : ∀ x ∈ data, x < 256) (i : Nat) (hi : i < data.length) :
    out.getD i 0 &&& 254 = data.getD i 0 &&& 254 ∧
    (i % 4 = 3 → out.getD i 0 = data.getD i 0) := by
  obtain ⟨payload, henc, hout⟩ : ∃ payload, textToBinary msg = some payload ∧
      out = embedAux data (padLeft 32 (natBits payload.length) ++ payload) 0 := by
    rcases htb : textToBinary msg with _ | payload
    · rw [embed_eq, htb] at hok
      exact absurd hok (by simp)
    · rw [embed_some_eq htb] at hok
      split at hok
      · exact absurd hok (by simp)
      · simp only [Except.ok.injEq] at hok
        exact ⟨payload, rfl, hok.symm⟩
  subst hout
  have hmain := embedAux_getD data (padLeft 32 (natBits payload.length) ++ payload) 0 i
  constructor
  · have hd1 := hmain.1
    have hdata : data.getD i 0 < 256 := by
      rw [List.getD_eq_getElem data 0 hi]
      exact hbytes _ (List.getElem_mem hi)
    have hout256 : (embedAux data (padLeft 32 (natBits payload.length) ++ payload) 0).getD i 0
        < 256 := by omega
    rw [land254_all _ hout256, land254_all _ hdata, hd1]
  · intro h3
    exact hmain.2 (by simpa using h3)

/-- C4, witness: embedding the empty message in a 4x3 all-7 buffer succeeds
and the conclusion holds at the alpha index 3. -/
theorem steg_C4_witness :
    (embedAux (List.replicate 48 7) (padLeft 32 (natBits 0) ++ []) 0).getD 3 0 &&& 254
        = (List.replicate 48 7).getD 3 0 &&& 254 ∧
      (3 % 4 = 3 → (embedAux (List.replicate 48 7) (padLeft 32 (natBits 0) ++ []) 0).getD 3 0
        = (List.replicate 48 7).getD 3 0) :=
  steg_C4 (List.replicate 48 7) 4 3 [] _ (by decide) (by decide) 3 (by decide)

/-- C5, counterexample: the claim's boundary case fails for a payload of
2^32 bits (a 2^29-character message): the claim's envelope length
`32 + len` equals `width*height*3` exactly, so the claim predicts success,
but the code's header (`padStart` does not truncate) is 33 bits long, so
the embed is rejected with `CapacityExceededError`. -/
theorem steg_C5_cex :
    textToBinary (List.replicate (2 ^ 29) 0) = some (List.replicate (2 ^ 32) false) ∧
    (List.replicate (2 ^ 32) false).length + 32 = 1431655776 * 1 * 3 ∧
    embed [] 1431655776 1 (List.replicate (2 ^ 29) 0)
      = Except.error StegError.capacityExceeded := by
  have htb : textToBinary (List.replicate (2 ^ 29) 0)
      = some (List.replicate (2 ^ 32) false) := by
    rw [textToBinary_replicate_zero (2 ^ 29), show (8 * 2 ^ 29 : Nat) = 2 ^ 32 by norm_num]
  refine ⟨htb, ?_, ?_⟩
  · rw [List.length_replicate]
    norm_num
  · rw [embed_some_eq htb]
    apply if_pos
    have hlen33 : (padLeft 32 (natBits (List.replicate (2 ^ 32) false).length)).length = 33 := by
      rw [List.length_replicate, padLeft_length, natBits_pow_length 32]
      omega
    rw [List.length_append, hlen33, List.length_replicate]
    norm_num

/-- C5, amended: for payload bit counts below 2^32 (so the header occupies
exactly 32 bits), embed fails with `CapacityExceededError` exactly when
`32 + len(encodeText(message))` exceeds `width*height*3`; otherwise (so in
particular when the envelope exactly fills the capacity) it succeeds, the
check being a pure comparison performed before any buffer is written. -/
theorem steg_C5_amended (w h : Nat) (data msg : List Nat) (payload : List Bool)
    (henc : textToBinary msg = some payload) (hsize : payload.length < 2 ^ 32) :
    (embed data w h msg = Except.error StegError.capacityExceeded
      ↔ w * h * 3 < 32 + payload.length) ∧
    (32 + payload.length ≤ w * h * 3 →
      embed data w h msg
        = Except.ok (embedAux data (padLeft 32 (natBits payload.length) ++ payload) 0)) := by
  have hhlen : (padLeft 32 (natBits payload.length)).length = 32 :=
    padLeft_length_of_le (natBits_length_le _ 32 (by norm_num) hsize)
  have henv : (padLeft 32 (natBits payload.length) ++ payload).length = 32 + payload.length := by
    rw [List.length_append, hhlen]
  constructor
  · rw [embed_some_eq henc]
    by_cases hc : (padLeft 32 (natBits payload.length) ++ payload).length > w * h * 3
    · rw [if_pos hc]
      exact ⟨fun _ => by omega, fun _ => rfl⟩
    · rw [if_neg hc]
      exact ⟨fun hcontra => absurd hcontra (by simp), fun hlt => absurd hlt (by omega)⟩
  · intro hle
    exact embed_ok_of henc (by omega)

/-- C5, amended, witness: a one-character message on a 4x3 image (capacity
36 bits, envelope 40 bits) instantiates the iff and the success clause. -/
theorem steg_C5_amended_witness :
    (embed (List.replicate 48 0) 4 3 [104] = Except.error StegError.capacityExceeded
      ↔ 4 * 3 * 3 < 32 + [false, true, true, false, true, false, false, false].length) ∧
    (32 + [false, true, true, false, true, false, false, false].length ≤ 4 * 3 * 3 →
      embed (List.replicate 48 0) 4 3 [104]
        = Except.ok (embedAux (List.replicate 48 0)
            (padLeft 32 (natBits [false, true, true, false, true, false, false, false].length)
              ++ [false, true, true, false, true, false, false, false]) 0)) :=
  steg_C5_amended 4 3 (List.replicate 48 0) [104]
    [false, true, true, false, true, false, false, false] (by decide) (by decide)

/-- C6: the spec's `capacityBytes(10,10) = floor((300-32)/8) = 33` is what
`calculateCapacity` in `encode-form.tsx` computes, but the capacity that
`handleEncode`'s error message reports is `floor(300/8) = 37` bytes, and a
37-byte message is in fact rejected with `CapacityExceededError` while a
33-byte message is accepted: the reported number contradicts the embedder's
own check. -/
theorem steg_C6_bug :
    reportedCapacityBytes 10 10 = 37 ∧
    calculateCapacity 10 10 = 33 ∧
    embed (List.replicate 400 128) 10 10 (List.replicate 37 104)
      = Except.error StegError.capacityExceeded ∧
    embed (List.replicate 400 128) 10 10 (List.replicate 33 104)
      = Except.ok (embedAux (List.replicate 400 128)
          (padLeft 32 (natBits ((List.replicate 33 (toBinBE 8 104)).flatten).length)
            ++ (List.replicate 33 (toBinBE 8 104)).flatten) 0) := by
  refine ⟨by norm_num [reportedCapacityBytes], by norm_num [calculateCapacity], ?_, ?_⟩
  · rw [embed_some_eq (show textToBinary (List.replicate 37 104)
        = some ((List.replicate 37 (toBinBE 8 104)).flatten) by decide)]
    exact if_pos (by decide)
  · exact embed_ok_of (by decide) (by decide)

/-- C7, counterexample: for a 2^29-character message the payload is 2^32
bits and `length.toString(2).padStart(32,'0')` yields a 33-bit header, so
the envelope's length is `33 + 2^32`, not the `32 + 2^32` that any
"32-bit header ++ payload" decomposition would give. -/
theorem steg_C7_cex :
    textToBinary (List.replicate (2 ^ 29) 0) = some (List.replicate (2 ^ 32) false) ∧
    (envelopeOf (List.replicate (2 ^ 29) 0)).map List.length = some (33 + 2 ^ 32) ∧
    33 + 2 ^ 32 ≠ 32 + 2 ^ 32 := by
  have htb : textToBinary (List.replicate (2 ^ 29) 0)
      = some (List.replicate (2 ^ 32) false) := by
    rw [textToBinary_replicate_zero (2 ^ 29), show (8 * 2 ^ 29 : Nat) = 2 ^ 32 by norm_num]
  refine ⟨htb, ?_, by norm_num⟩
  rw [envelopeOf, htb, Option.map_some', Option.map_some']
  apply congrArg
  rw [List.length_append, List.length_replicate, padLeft_length, natBits_pow_length 32]
  norm_num

/-- C7, amended: for every message that encodes successfully with payload
bit count below 2^32, the embedded envelope is exactly the 32-bit unsigned
big-endian representation of the payload bit count followed by the payload,
and the payload is the concatenation of the 8-bit MSB-first representations
of the character codes. -/
theorem steg_C7_amended (msg : List Nat) (payload : List Bool)
    (henc : textToBinary msg = some payload) (hsize : payload.length < 2 ^ 32) :
    envelopeOf msg = some (toBinBE 32 payload.length ++ payload) ∧
    payload = (msg.map fun c => toBinBE 8 c).flatten := by
  constructor
  · rw [envelopeOf, henc, Option.map_some',
      padLeft_natBits_eq_toBinBE (by norm_num) hsize]
  · exact textToBinary_eq_flatten msg payload henc

/-- C7, amended, witness: the message "h" (code 104) has envelope
`toBinBE 32 8 ++ toBinBE 8 104` and payload `toBinBE 8 104`. -/
theorem steg_C7_amended_witness :
    envelopeOf [104] = some (toBinBE 32
        [false, true, true, false, true, false, false, false].length
      ++ [false, true, true, false, true, false, false, false]) ∧
    [false, true, true, false, true, false, false, false]
      = ([104].map fun c => toBinBE 8 c).flatten :=
  steg_C7_amended [104] [false, true, true, false, true, false, false, false]
    (by decide) (by decide)

/-- C8: when the 32-bit header is readable and its value passes validation
(nonzero and at most `width*height*3`), extract fails with
`TruncatedPayloadError` exactly when fewer embeddable channel bits than the
header demands remain past the 32 header bits; otherwise it returns the
text decoded from the bits that continue the same channel traversal
immediately after the header. -/
theorem steg_C8 (w h : Nat) (data : List Nat)
    (hlen : data.length = w * h * 4) (hcap : 32 ≤ w * h * 3)
    (hne2 : bitsToNat (collectHeader data 0 0) ≠ 0)
    (hle : bitsToNat (collectHeader data 0 0) ≤ w * h * 3) :
    (w * h * 3 - 32 < bitsToNat (collectHeader data 0 0) →
      extract data w h = Except.error StegError.truncatedPayload) ∧
    (bitsToNat (collectHeader data 0 0) ≤ w * h * 3 - 32 →
      extract data w h = Except.ok (binaryToText
        (((lsbAux data 0).drop 32).take (bitsToNat (collectHeader data 0 0))))) :=
  ⟨fun hbig => extract_truncatedPayload_of hlen hcap hne2 hle hbig,
   fun hfit => extract_ok_of hlen hcap hne2 hfit⟩

/-- C8, witness: a 4x3 buffer whose header decodes to 5 (only 4 payload
bits available) instantiates the theorem; the first implication yields the
truncation failure. -/
theorem steg_C8_witness :
    ((4 * 3 * 3 - 32 < bitsToNat (collectHeader (((List.replicate 48 0).set 38 1).set 41 1) 0 0) →
      extract (((List.replicate 48 0).set 38 1).set 41 1) 4 3
        = Except.error StegError.truncatedPayload) ∧
     (bitsToNat (collectHeader (((List.replicate 48 0).set 38 1).set 41 1) 0 0) ≤ 4 * 3 * 3 - 32 →
      extract (((List.replicate 48 0).set 38 1).set 41 1) 4 3
        = Except.ok (binaryToText
            (((lsbAux (((List.replicate 48 0).set 38 1).set 41 1) 0).drop 32).take
              (bitsToNat (collectHeader (((List.replicate 48 0).set 38 1).set 41 1) 0 0)))))) :=
  steg_C8 4 3 (((List.replicate 48 0).set 38 1).set 41 1)
    (by decide) (by norm_num) (by decide) (by decide)

/-- C9: a message containing a character whose code exceeds 255 makes the
text-to-bitstream conversion throw (the pad count `8 - binary.length` is
negative, so `String.repeat` raises a `RangeError`), and therefore the
whole encode fails instead of producing a bitstream. -/
theorem steg_C9 (msg : List Nat) (c : Nat) (data : List Nat) (w h : Nat)
    (hmem : c ∈ msg) (hgt : 255 < c) :
    textToBinary msg = none ∧ embed data w h msg = Except.error StegError.badChar := by
  have hnone := textToBinary_none_of_mem msg c hmem (by omega)
  refine ⟨hnone, ?_⟩
  rw [embed_eq, hnone]

/-- C9, witness: the one-character message with code 256. -/
theorem steg_C9_witness :
    textToBinary [256] = none ∧ embed [] 1 1 [256] = Except.error StegError.badChar :=
  steg_C9 [256] 256 [] 1 1 (by decide) (by decide)

/-- C10: on any buffer of capacity at least 32, embedding the empty message
succeeds and writes the 32-bit all-zero header, but extracting from the
resulting buffer always fails with `InvalidLengthError`: the empty message
can be encoded yet never decoded back. -/
theorem steg_C10 (w h : Nat) (data : List Nat)
    (hlen : data.length = w * h * 4) (hcap : 32 ≤ w * h * 3) :
    embed data w h [] = Except.ok (embedAux data (List.replicate 32 false) 0) ∧
    extract (embedAux data (List.replicate 32 false) 0) w h
      = Except.error StegError.invalidLength := by
  have henv : padLeft 32 (natBits ([] : List Bool).length) ++ ([] : List Bool)
      = List.replicate 32 false := by decide
  constructor
  · have hok := @embed_ok_of w h data [] []
      rfl (by rw [show (padLeft 32 (natBits ([] : List Bool).length) ++ ([] : List Bool)).length = 32
                    by decide]
              exact hcap)
    rw [hok, henv]
  · have hemblen : (embedAux data (List.replicate 32 false) 0).length = w * h * 4 := by
      rw [embedAux_length]
      exact hlen
    rw [extract_invalidLength_iff hemblen hcap]
    left
    have hlsb : lsbAux (embedAux data (List.replicate 32 false) 0) 0
        = List.replicate 32 false ++ (lsbAux data 0).drop 32 := by
      have hfit : (List.replicate (32 : Nat) false).length ≤ (lsbAux data 0).length := by
        rw [lsbAux_zero_length hlen, List.length_replicate]
        omega
      rw [lsbAux_embedAux data (List.replicate 32 false) 0 hfit, List.length_replicate]
    rw [collectHeader_zero, hlsb, take_append_of_length (by rw [List.length_replicate])]
    exact bitsToNat_replicate_false 32

/-- C10, witness: the 4x3 all-7 buffer. -/
theorem steg_C10_witness :
    embed (List.replicate 48 7) 4 3 []
        = Except.ok (embedAux (List.replicate 48 7) (List.replicate 32 false) 0) ∧
      extract (embedAux (List.replicate 48 7) (List.replicate 32 false) 0) 4 3
        = Except.error StegError.invalidLength :=
  steg_C10 4 3 (List.replicate 48 7) (by decide) (by norm_num)

end Stegano
